import Mathlib

/-!
Shallow embedding of the chain-weight and fee-market estimation engine
(`src/fil_cns/weight.rs` and `src/rpc/gas_api.rs`).

Arbitrary-precision integers (`BigInt` / `TokenAmount`) are embedded as `Int`,
unsigned 64-bit machine integers as `Nat` with explicit reduction modulo
`2 ^ 64` where the source performs wrapping machine arithmetic, and fallible
paths as `Except` / `Option`.
-/

namespace Forest

/-! Weight engine: `src/fil_cns/weight.rs`. -/

/-- Constant `W_RATIO_NUM : u64 = 1` from `weight.rs`. -/
def W_RATIO_NUM : Int := 1

/-- Constant `W_RATIO_DEN : u64 = 2` from `weight.rs`. -/
def W_RATIO_DEN : Int := 2

/-- Constant `BLOCKS_PER_EPOCH : u64 = 5` from `weight.rs`. -/
def BLOCKS_PER_EPOCH : Int := 5

/-- The slice of a block header consumed by the weight function: the optional
election proof (only its `win_count : i64` is read) and the parent base fee. -/
structure BlockHeader where
  election_proof : Option Int
  parent_base_fee : Int
deriving Repr, DecidableEq

/-- The slice of a tipset consumed by the weight function: its block headers and
its recorded parent weight (`ts.weight()`), a `BigInt`. -/
structure Tipset where
  block_headers : List BlockHeader
  weight : Int
deriving Repr, DecidableEq

/-- BigInt left shift: `x << n` is exact multiplication by `2 ^ n`. -/
def bigIntShl (x : Int) (n : Nat) : Int := x * 2 ^ n

/-- Fuel-based bit length: `bitLenAux fuel n` computes the number of binary
digits of `n` as long as `fuel ≥ n`. Structural recursion on the fuel keeps the
definition kernel-reducible. -/
def bitLenAux : Nat → Nat → Nat
  | 0, _ => 0
  | fuel + 1, n => if n = 0 then 0 else bitLenAux fuel (n / 2) + 1

/-- Bit length of a non-negative `BigInt` magnitude, as `num-bigint`'s
`BigInt::bits`: `bits 0 = 0` and `2 ^ (bits n - 1) ≤ n < 2 ^ bits n` for
`n > 0` (proved in `bitLen_spec` below). -/
def bitLen (n : Nat) : Nat := bitLenAux n n

/-- Wrapping two's-complement reduction of an `i64` arithmetic result
(release-profile semantics; a debug build panics on overflow instead). -/
def wrapI64 (x : Int) : Int := (x + 2 ^ 63) % 2 ^ 64 - 2 ^ 63

/-- The `for b in ts.block_headers()` loop of `weight`: accumulate
`total_j += b.election_proof.ok_or(...)?.win_count`, failing at the first
header that lacks an election proof. `total_j` is an `i64`, so each addition
wraps (release profile) rather than growing without bound. -/
def sumWinCountsAux (acc : Int) : List BlockHeader → Except String Int
  | [] => .ok acc
  | b :: bs =>
    match b.election_proof with
    | none => .error ("Block contained no election proof when calculating weight")
    | some w => sumWinCountsAux (wrapI64 (acc + w)) bs

/-- Model of `weight` from `src/fil_cns/weight.rs`. The state-tree access is abstracted
into `actPower`: `none` models `state.get_actor(&Address::POWER_ACTOR)` finding
no actor, `some tpow` models a loaded power state whose
`into_total_quality_adj_power()` is `tpow`. All `BigInt` arithmetic is exact
over `Int`; `div_floor` is `Int.fdiv`. -/
def weight (actPower : Option Int) (ts : Tipset) : Except String Int :=
  match actPower with
  | none => .error ("Failed to load power actor for calculating weight")
  | some tpow =>
    if 0 < tpow then
      let log2_p : Int := ((bitLen tpow.toNat - 1 : Nat) : Int)
      match sumWinCountsAux 0 ts.block_headers with
      | .error e => .error e
      | .ok total_j =>
        let out := ts.weight + bigIntShl log2_p 8
        let e1 := log2_p * W_RATIO_NUM
        let e2 := bigIntShl e1 8
        let e3 := e2 * total_j
        let e4 := Int.fdiv e3 (BLOCKS_PER_EPOCH * W_RATIO_DEN)
        .ok (out + e4)
    else
      .error ("All power in the net is gone. You network might be disconnected, or the net is dead!")

/-- The tipset of the spec's worked scenario: two headers with win-counts 1
and 2, recorded parent weight 1000. -/
def tsScenario : Tipset :=
  { block_headers := [⟨some 1, 0⟩, ⟨some 2, 0⟩], weight := 1000 }

/-- A single-header tipset with win-count `j` and recorded parent weight `pw`. -/
def tsWin (j pw : Int) : Tipset := { block_headers := [⟨some j, 0⟩], weight := pw }

theorem bitLenAux_spec : ∀ fuel n : Nat, 1 ≤ n → n ≤ fuel →
    2 ^ (bitLenAux fuel n - 1) ≤ n ∧ n < 2 ^ bitLenAux fuel n := by
  intro fuel
  induction fuel with
  | zero => intro n h1 h2; omega
  | succ f ih =>
    intro n h1 h2
    rw [bitLenAux]
    have hn0 : ¬n = 0 := by omega
    simp only [hn0, if_false]
    by_cases hone : n = 1
    · subst hone
      have hz : bitLenAux f 0 = 0 := by cases f <;> simp [bitLenAux]
      norm_num [hz]
    · have hfuel : n / 2 ≤ f := by omega
      have hpos : 1 ≤ n / 2 := by omega
      obtain ⟨hl, hr⟩ := ih (n / 2) hpos hfuel
      set b := bitLenAux f (n / 2) with hb
      have hb1 : 1 ≤ b := by
        rcases Nat.eq_zero_or_pos b with h0 | hh
        · rw [h0, pow_zero] at hr; omega
        · exact hh
      have hpow : 2 ^ b = 2 * 2 ^ (b - 1) := by
        conv_lhs => rw [show b = b - 1 + 1 by omega]
        rw [pow_succ]; ring
      have hpow2 : 2 ^ (b + 1) = 2 * 2 ^ b := by rw [pow_succ]; ring
      simp only [Nat.add_sub_cancel]
      omega

theorem bitLen_spec (n : Nat) (h : 1 ≤ n) :
    2 ^ (bitLen n - 1) ≤ n ∧ n < 2 ^ bitLen n :=
  bitLenAux_spec n n h le_rfl

theorem bitLen_pos (n : Nat) (h : 1 ≤ n) : 1 ≤ bitLen n := by
  rcases bitLen_spec n h with ⟨_, hr⟩
  rcases Nat.eq_zero_or_pos (bitLen n) with h0 | h1
  · rw [h0, pow_zero] at hr; omega
  · exact h1

theorem two_le_bitLen (n : Nat) (h : 2 ≤ n) : 2 ≤ bitLen n := by
  rcases bitLen_spec n (by omega) with ⟨_, hr⟩
  by_contra hcon
  have hle : bitLen n ≤ 1 := by omega
  have hp : (2 : Nat) ^ bitLen n ≤ 2 ^ 1 := Nat.pow_le_pow_right (by norm_num) hle
  omega

theorem wrapI64_eq (x : Int) (h1 : -(2 ^ 63) ≤ x) (h2 : x < 2 ^ 63) :
    wrapI64 x = x := by
  unfold wrapI64
  rw [Int.emod_eq_of_lt (by omega) (by omega)]
  ring

/-- As long as every partial sum of the win-counts stays inside the `i64`
range (guaranteed when `|acc|` plus the sum of the absolute win-counts is
below `2 ^ 63`), the wrapping accumulation computes the exact sum. -/
theorem sumWinCountsAux_eq (bs : List BlockHeader) (ws : List Int)
    (h : bs.map BlockHeader.election_proof = ws.map some) :
    ∀ acc : Int, acc.natAbs + (ws.map Int.natAbs).sum < 2 ^ 63 →
      sumWinCountsAux acc bs = .ok (acc + ws.sum) := by
  induction bs generalizing ws with
  | nil =>
    intro acc hacc
    have : ws = [] := by
      cases ws with
      | nil => rfl
      | cons w ws' => simp at h
    subst this
    simp [sumWinCountsAux]
  | cons b bs' ih =>
    intro acc hacc
    cases ws with
    | nil => simp at h
    | cons w ws' =>
      simp only [List.map_cons, List.cons.injEq] at h
      obtain ⟨hb, hbs⟩ := h
      have hmapsum : (List.map Int.natAbs (w :: ws')).sum
          = w.natAbs + (List.map Int.natAbs ws').sum := by simp
      have habs : (acc + w).natAbs ≤ acc.natAbs + w.natAbs := Int.natAbs_add_le acc w
      have hx1 : -(2 ^ 63) ≤ acc + w := by omega
      have hx2 : acc + w < 2 ^ 63 := by omega
      rw [sumWinCountsAux, hb]
      show sumWinCountsAux (wrapI64 (acc + w)) bs' = Except.ok (acc + (w :: ws').sum)
      rw [wrapI64_eq (acc + w) hx1 hx2]
      rw [ih ws' hbs (acc + w) (by omega)]
      simp [List.sum_cons, add_assoc]

/-- Normal form of `weight` when the power actor is present with positive
power, every header carries an election proof with win-counts `ws`, and the
win-count sum stays inside the `i64` accumulator `total_j`. -/
theorem weight_ok (tpow : Int) (ts : Tipset) (ws : List Int)
    (hp : 0 < tpow)
    (hw : ts.block_headers.map BlockHeader.election_proof = ws.map some)
    (hbound : (ws.map Int.natAbs).sum < 2 ^ 63) :
    weight (some tpow) ts =
      .ok (ts.weight + ((bitLen tpow.toNat : Int) - 1) * 2 ^ 8
        + Int.fdiv ((((bitLen tpow.toNat : Int) - 1) * W_RATIO_NUM * 2 ^ 8) * ws.sum)
            (BLOCKS_PER_EPOCH * W_RATIO_DEN)) := by
  have hcast : ((bitLen tpow.toNat - 1 : Nat) : Int) = (bitLen tpow.toNat : Int) - 1 := by
    have h1 : 1 ≤ bitLen tpow.toNat := bitLen_pos _ (by omega)
    omega
  rw [weight, if_pos hp, sumWinCountsAux_eq ts.block_headers ws hw 0 (by simpa using hbound)]
  simp only [bigIntShl, hcast, zero_add]

theorem fdiv_ten_strict_mono (c j j' : Int) (hc : 10 ≤ c) (hjj : j < j') :
    Int.fdiv (c * j) 10 < Int.fdiv (c * j') 10 := by
  rw [Int.fdiv_eq_ediv _ (by norm_num), Int.fdiv_eq_ediv _ (by norm_num)]
  have h1 : c * j + 10 ≤ c * j' := by nlinarith
  have h2 : (c * j + 1 * 10) / 10 = (c * j) / 10 + 1 :=
    Int.add_mul_ediv_right (c * j) 1 (by norm_num)
  have h3 : (c * j + 10) / 10 ≤ (c * j') / 10 := Int.ediv_le_ediv (by norm_num) h1
  omega

/-- The overflow tipset: two headers whose win-counts `2 ^ 62` each are valid
`i64` values but whose running sum `2 ^ 63` overflows the `i64` accumulator
`total_j`. -/
def tsOver : Tipset :=
  { block_headers := [⟨some (2 ^ 62), 0⟩, ⟨some (2 ^ 62), 0⟩], weight := 0 }

/-- C1 counterexample: the claim asserts the arbitrary-precision formula for
every tipset with all proofs present, but `total_j` is an `i64`: at win-counts
`2 ^ 62` and `2 ^ 62` the accumulation wraps to `-2 ^ 63` (release profile; a
debug build panics) and the result differs from the claimed exact-sum
formula. -/
theorem weight_formula_overflow :
    weight (some 2) tsOver ≠
      .ok (tsOver.weight + ((bitLen (Int.toNat 2) : Int) - 1) * 2 ^ 8
        + Int.fdiv ((((bitLen (Int.toNat 2) : Int) - 1) * W_RATIO_NUM * 2 ^ 8)
              * ([2 ^ 62, 2 ^ 62] : List Int).sum)
            (BLOCKS_PER_EPOCH * W_RATIO_DEN)) := by
  intro h
  have h1 : weight (some 2) tsOver = .ok (256 + Int.fdiv (256 * -(2 ^ 63)) 10) := rfl
  rw [h1] at h
  exact absurd (Except.ok.inj h) (by decide)

/-- C1 amended: with the power actor present, total quality-adjusted power
`P > 0`, every block header carrying an election proof and the win-count sum
staying inside the `i64` accumulator `total_j` (absolute win-counts summing
below `2 ^ 63`; past that the i64 accumulation wraps in release builds and
panics in debug builds), `weight` returns exactly
`parent_weight + (log2_p << 8) +
 floor((log2_p * W_RATIO_NUM << 8) * total_win_count / (BLOCKS_PER_EPOCH * W_RATIO_DEN))`
with `log2_p = bit_length(P) - 1` and `total_win_count` the sum of the headers'
win-counts, all remaining arithmetic exact `BigInt` with floor division. -/
theorem weight_formula_c1 (tpow : Int) (ts : Tipset) (ws : List Int)
    (hp : 0 < tpow)
    (hw : ts.block_headers.map BlockHeader.election_proof = ws.map some)
    (hbound : (ws.map Int.natAbs).sum < 2 ^ 63) :
    weight (some tpow) ts =
      .ok (ts.weight + ((bitLen tpow.toNat : Int) - 1) * 2 ^ 8
        + Int.fdiv ((((bitLen tpow.toNat : Int) - 1) * W_RATIO_NUM * 2 ^ 8) * ws.sum)
            (BLOCKS_PER_EPOCH * W_RATIO_DEN)) :=
  weight_ok tpow ts ws hp hw hbound

/-- C1 witness: the formula instantiated at `P = 8`, win-counts `[1, 2]`,
parent weight 1000. -/
theorem weight_formula_c1_witness :
    weight (some 8) tsScenario =
      .ok (tsScenario.weight + ((bitLen (Int.toNat 8) : Int) - 1) * 2 ^ 8
        + Int.fdiv ((((bitLen (Int.toNat 8) : Int) - 1) * W_RATIO_NUM * 2 ^ 8)
              * ([1, 2] : List Int).sum)
            (BLOCKS_PER_EPOCH * W_RATIO_DEN)) :=
  weight_formula_c1 8 tsScenario [1, 2] (by decide) (by decide) (by decide)

/-- C2 counterexample: at `P = 8`, win-counts 1 and 2 and parent weight 1000,
`weight` does not return 1665: `bit_length(8) - 1 = 3`, not 2, so the spec
scenario's `log2_p = 2` is wrong. -/
theorem weight_scenario_ne_1665 : weight (some 8) tsScenario ≠ .ok 1665 := by
  intro h
  have h2 : weight (some 8) tsScenario = .ok 1998 := rfl
  rw [h2] at h
  exact absurd (Except.ok.inj h) (by decide)

/-- C2 amended: at `P = 8` (so `log2_p = bit_length(8) - 1 = 3`), win-counts 1
and 2 (`total_win_count = 3`) and parent weight 1000, `weight` returns
`1000 + (3 << 8) + floor(3 * 256 * 3 / 10) = 1000 + 768 + 230 = 1998`. -/
theorem weight_scenario_eq_1998 : weight (some 8) tsScenario = .ok 1998 := rfl

/-- C4 counterexample: at `P = 1` (so `log2_p = 0`) a strictly larger total
win-count with the same parent weight does not give a strictly larger weight:
both single-header tipsets with win-counts 2 and 1 weigh exactly 1000. -/
theorem weight_not_strict_mono_at_one :
    weight (some 1) (tsWin 2 1000) = .ok 1000 ∧
    weight (some 1) (tsWin 1 1000) = .ok 1000 :=
  ⟨rfl, rfl⟩

/-- C4 amended: for every pair of tipsets sharing the recorded parent weight,
each with `P > 0`, all election proofs present and non-negative win-counts
whose total stays inside the `i64` accumulator, the result is `>=` the parent
weight, and for fixed `P >= 2` a strictly larger total win-count yields a
strictly larger weight (at `P = 1` the scaling factor `log2_p` is zero and
the weight is constant in the win-count). -/
theorem weight_ge_parent_strict_mono (tpow pw : Int) (ts ts' : Tipset)
    (ws ws' : List Int)
    (hp : 0 < tpow)
    (hpw : ts.weight = pw) (hpw' : ts'.weight = pw)
    (hw : ts.block_headers.map BlockHeader.election_proof = ws.map some)
    (hw' : ts'.block_headers.map BlockHeader.election_proof = ws'.map some)
    (hnn : ∀ w ∈ ws, 0 ≤ w)
    (hb : (ws.map Int.natAbs).sum < 2 ^ 63) (hb' : (ws'.map Int.natAbs).sum < 2 ^ 63)
    (hsum : ws.sum < ws'.sum) :
    ∃ v v' : Int,
      weight (some tpow) ts = .ok v ∧
      weight (some tpow) ts' = .ok v' ∧
      pw ≤ v ∧ (2 ≤ tpow → v < v') := by
  have h1 := weight_ok tpow ts ws hp hw hb
  have h2 := weight_ok tpow ts' ws' hp hw' hb'
  rw [hpw] at h1
  rw [hpw'] at h2
  have hL0 : (0 : Int) ≤ (bitLen tpow.toNat : Int) - 1 := by
    have := bitLen_pos tpow.toNat (by omega)
    omega
  refine ⟨_, _, h1, h2, ?_, ?_⟩
  · have hd : 0 ≤ Int.fdiv ((((bitLen tpow.toNat : Int) - 1) * W_RATIO_NUM * 2 ^ 8)
        * ws.sum) (BLOCKS_PER_EPOCH * W_RATIO_DEN) := by
      refine Int.fdiv_nonneg ?_ (by norm_num [BLOCKS_PER_EPOCH, W_RATIO_DEN])
      have : (0 : Int) ≤ ((bitLen tpow.toNat : Int) - 1) * W_RATIO_NUM * 2 ^ 8 := by
        simp only [W_RATIO_NUM, mul_one]
        exact mul_nonneg hL0 (by norm_num)
      exact mul_nonneg this (List.sum_nonneg hnn)
    have hsh : (0 : Int) ≤ ((bitLen tpow.toNat : Int) - 1) * 2 ^ 8 :=
      mul_nonneg hL0 (by norm_num)
    linarith
  · intro htwo
    have hL1 : (1 : Int) ≤ (bitLen tpow.toNat : Int) - 1 := by
      have := two_le_bitLen tpow.toNat (by omega)
      omega
    have hc : (10 : Int) ≤ ((bitLen tpow.toNat : Int) - 1) * W_RATIO_NUM * 2 ^ 8 := by
      norm_num [W_RATIO_NUM]
      nlinarith
    have hmono := fdiv_ten_strict_mono _ ws.sum ws'.sum hc hsum
    simp only [BLOCKS_PER_EPOCH, W_RATIO_DEN]
    have : (5 : Int) * 2 = 10 := by norm_num
    rw [this]
    linarith

/-- C4 witness: the amended statement instantiated at `P = 2`, parent weight
1000 and two two-header tipsets with win-count totals 1 and 3. -/
theorem weight_ge_parent_strict_mono_witness :
    ∃ v v' : Int,
      weight (some 2) ⟨[⟨some 1, 0⟩, ⟨some 0, 0⟩], 1000⟩ = .ok v ∧
      weight (some 2) ⟨[⟨some 1, 0⟩, ⟨some 2, 0⟩], 1000⟩ = .ok v' ∧
      (1000 : Int) ≤ v ∧ ((2 : Int) ≤ 2 → v < v') :=
  weight_ge_parent_strict_mono 2 1000
    ⟨[⟨some 1, 0⟩, ⟨some 0, 0⟩], 1000⟩ ⟨[⟨some 1, 0⟩, ⟨some 2, 0⟩], 1000⟩
    [1, 0] [1, 2] (by decide) rfl rfl (by decide) (by decide)
    (by decide) (by decide) (by decide) (by decide)

/-! Fee-market estimator: `src/rpc/gas_api.rs`. -/

/-- Constant `MIN_GAS_PREMIUM : f64 = 100000.0` from `gas_api.rs`; every use
casts it exactly to `u64`. -/
def MIN_GAS_PREMIUM : Nat := 100000

/-- The per-message history record collected by `estimate_gas_premium`: the
message's gas premium (`TokenAmount`, here `Int`) and gas limit (`u64`). -/
structure GasMeta where
  price : Int
  limit : Nat
deriving Repr, DecidableEq

/-- The modulus of `u64` machine arithmetic. -/
def U64_MOD : Nat := 2 ^ 64

/-- Wrapping `u64` subtraction `a - b` (release-profile semantics of Rust's
`at -= price.limit`; a debug build would panic on overflow instead). -/
def wrappingSub64 (a b : Nat) : Nat := (a + (U64_MOD - b % U64_MOD)) % U64_MOD

/-- Stable insertion of `g` into a list already sorted by price descending:
`g` goes after every entry whose price is `≥ g.price`, which models the
stability of Rust's `sort_by`. -/
def insertDesc (g : GasMeta) : List GasMeta → List GasMeta
  | [] => [g]
  | h :: t => if g.price ≤ h.price then h :: insertDesc g t else g :: h :: t

/-- Embedding of `prices.sort_by(|a, b| b.price.cmp(&a.price))`: a stable sort by premium,
descending. -/
def sortPrices (l : List GasMeta) : List GasMeta :=
  l.foldl (fun acc g => insertDesc g acc) []

/-- The `for price in prices` loop of `estimate_gas_premium` over the sorted
history, with running state `at` (`u64`, wrapping), `prev` and `premium`
(`TokenAmount`). `.inl r` models the early `return Ok(ret)` taken when the
budget is exhausted while `prev` is still zero; `.inr premium` is the value of
`premium` when the loop runs to completion. -/
def premiumLoop : List GasMeta → Nat → Int → Int → Int ⊕ Int
  | [], _, _, premium => .inr premium
  | p :: rest, at0, prev, premium =>
    let at1 := wrappingSub64 at0 p.limit
    if 0 < at1 then premiumLoop rest at1 p.price premium
    else if prev = 0 then .inl (p.price + 1)
    else premiumLoop rest at1 prev (Int.fdiv (p.price + prev) 2 + 1)

/-- The default premium chosen when the walk determined none:
`(MIN_GAS_PREMIUM * 2.0) as u64`, `(MIN_GAS_PREMIUM * 1.5) as u64` and
`MIN_GAS_PREMIUM as u64` for 1, 2 and any other number of blocks; all three
float products are exact, so the casts are exact. -/
def defaultPremium (nblocksincl : Nat) : Int :=
  match nblocksincl with
  | 1 => (MIN_GAS_PREMIUM * 2 : Nat)
  | 2 => 150000
  | _ => (MIN_GAS_PREMIUM : Nat)

/-- Model of `estimate_gas_premium` from `gas_api.rs`. The chain walk that collects the
history is abstracted into its outputs `histPrices` (the collected
premium/gas-limit pairs) and `blocks` (the number of block headers visited);
`blockGasTarget` stands for the `BLOCK_GAS_TARGET` constant (a `u64`, defined
outside this crate slice), and `noiseFixed` is the `BigInt` produced by
`BigInt::from_f64(noise * (1i64 << 32) as f64)` for the sampled Gaussian
noise. `at` is computed and updated in `u64` arithmetic (wrapping), the
premium arithmetic is exact `BigInt` arithmetic with `div_floor`. -/
def estimate_gas_premium (blockGasTarget : Nat) (histPrices : List GasMeta)
    (blocks : Nat) (nblocksincl0 : Nat) (noiseFixed : Int) : Int :=
  let nblocksincl := if nblocksincl0 = 0 then 1 else nblocksincl0
  let prices := sortPrices histPrices
  let at0 := blockGasTarget * blocks % U64_MOD / 2
  match premiumLoop prices at0 0 0 with
  | .inl ret => ret
  | .inr premium0 =>
    let premium1 := if premium0 = 0 then defaultPremium nblocksincl else premium0
    Int.fdiv (premium1 * noiseFixed) (2 ^ 32)

/-- Truncation toward zero of a rational to an integer: the conversion
performed by `BigInt::from_f64` on a finite float. -/
def ratTrunc (q : ℚ) : Int := if 0 ≤ q then ⌊q⌋ else ⌈q⌉

/-- Model of `estimate_fee_cap` from `gas_api.rs`. The floating-point increase factor
`(1.0 + 1.0 / BASE_FEE_MAX_CHANGE_DENOM).powf(max_queue_blks)` is abstracted
into `factorF64`: `some incf` models a finite `f64` result with exact rational
value `incf` (every finite `f64` is a rational, and the subsequent
`* (1 << 8) as f64` scaling by a power of two is exact), `none` models a
non-finite result on which `BigInt::from_f64` fails with the
`NumericConversionError`-style error. `parentBaseFee` is the heaviest tipset's
first block header's parent base fee and `gasPremiumMsg` the message's gas
premium. -/
def estimate_fee_cap (parentBaseFee gasPremiumMsg : Int) (factorF64 : Option ℚ) :
    Option Int :=
  match factorF64 with
  | none => none
  | some incf =>
    let fee_in_future := parentBaseFee * ratTrunc (incf * 2 ^ 8)
    some (Int.fdiv fee_in_future (2 ^ 8) + gasPremiumMsg)

/-- The slice of a `MessageReceipt` consumed by `estimate_gas_limit`: the exit
code (`u32`) and the gas used (`u64`). -/
structure MessageReceipt where
  exit_code : Nat
  gas_used : Nat
deriving Repr, DecidableEq

/-- The `u64 -> i64` cast `rct.gas_used() as i64` (two's-complement
reinterpretation). -/
def u64ToI64 (n : Nat) : Int :=
  if n % U64_MOD < 2 ^ 63 then ((n % U64_MOD : Nat) : Int)
  else ((n % U64_MOD : Nat) : Int) - (U64_MOD : Nat)

/-- The result computation of `estimate_gas_limit` from `gas_api.rs`. The
speculative execution (`call_with_gas` on the message with its gas fields
forced to `BLOCK_GAS_LIMIT` / `MINIMUM_BASE_FEE + 1` / one atto) is abstracted
into its output `rct`, the optional message receipt `res.msg_rct`. A receipt
with non-zero exit code and a missing receipt both yield the sentinel `-1`
inside `Ok`; a zero exit code yields `gas_used as i64 + 200000`. -/
def estimate_gas_limit (rct : Option MessageReceipt) : Int :=
  match rct with
  | some r => if r.exit_code ≠ 0 then -1 else u64ToI64 r.gas_used + 200000
  | none => -1

/-- The message fields touched or framed by `estimate_message_gas`:
`gas_limit : u64`, `gas_fee_cap`, `gas_premium` (`TokenAmount`), and the
remaining fields it must leave unchanged. -/
structure Message where
  fromAddr : Nat
  toAddr : Nat
  sequence : Nat
  value : Int
  method : Nat
  params : List Nat
  gas_limit : Nat
  gas_fee_cap : Int
  gas_premium : Int
deriving Repr, DecidableEq

/-- The `i64 -> u64` cast `gl as u64` (two's-complement reinterpretation). -/
def i64ToU64 (g : Int) : Nat := (g % ((U64_MOD : Nat) : Int)).toNat

/-- Model of `estimate_message_gas` from `gas_api.rs`. The three estimators it calls
are abstracted into their successful outputs: `glEst` for
`estimate_gas_limit` (called with a clone of the message), `gpEst` for
`estimate_gas_premium(data, 10)`, and `fcEst` for
`estimate_fee_cap(data, msg.clone(), 20, tsk)`, which receives the message as
updated so far and may read its (possibly just filled) gas premium. Each gas
field is overwritten only when it is zero on input. -/
def estimate_message_gas (msg : Message) (glEst : Int) (gpEst : Int)
    (fcEst : Message → Int) : Message :=
  let msg1 := if msg.gas_limit = 0 then { msg with gas_limit := i64ToU64 glEst } else msg
  let msg2 := if msg1.gas_premium = 0 then { msg1 with gas_premium := gpEst } else msg1
  if msg2.gas_fee_cap = 0 then { msg2 with gas_fee_cap := fcEst msg2 } else msg2

/-- A concrete message with all three gas fields non-zero. -/
def msgNZ : Message := ⟨1, 2, 3, 4, 5, [6], 7, 8, 9⟩

/-- A concrete message with `gas_limit = 0`. -/
def msgZL : Message := ⟨1, 2, 3, 4, 5, [6], 0, 8, 9⟩

/-- C3: at budget `at = 5` (e.g. `BLOCK_GAS_TARGET` standing at 10 with one
block visited), a first message whose gas limit 6 strictly exceeds the budget
makes the `u64` subtraction `at -= price.limit` wrap to `2 ^ 64 - 1` (release
profile; a debug build panics), so the walk never sees the budget as
exhausted and `estimate_gas_premium` falls through to the default premium
with noise applied instead of returning that message's premium plus one
atto-unit (`7 + 1 = 8`) immediately as the claim states. -/
theorem premium_walk_wrap_divergence :
    wrappingSub64 5 6 = 2 ^ 64 - 1 ∧
    estimate_gas_premium 10 [⟨7, 6⟩] 1 1 (2 ^ 32) = 200000 ∧
    ((200000 : Int) ≠ 7 + 1) :=
  ⟨rfl, rfl, by decide⟩

theorem premiumLoop_inl_mem :
    ∀ (l : List GasMeta) (a : Nat) (prev prem r : Int),
      premiumLoop l a prev prem = .inl r → ∃ g ∈ l, r = g.price + 1 := by
  intro l
  induction l with
  | nil => intro a prev prem r h; simp [premiumLoop] at h
  | cons p rest ih =>
    intro a prev prem r h
    simp only [premiumLoop] at h
    by_cases h1 : 0 < wrappingSub64 a p.limit
    · rw [if_pos h1] at h
      obtain ⟨g, hg, he⟩ := ih _ _ _ _ h
      exact ⟨g, List.mem_cons_of_mem _ hg, he⟩
    · rw [if_neg h1] at h
      by_cases h2 : prev = 0
      · rw [if_pos h2] at h
        exact ⟨p, List.mem_cons_self _ _, (Sum.inl.inj h).symm⟩
      · rw [if_neg h2] at h
        obtain ⟨g, hg, he⟩ := ih _ _ _ _ h
        exact ⟨g, List.mem_cons_of_mem _ hg, he⟩

/-- C9: whenever the budget walk takes the early-return branch, the returned
value is some collected message's premium plus one atto-unit and the noise
multiplier is never applied: the result is identical for any two noise
samples, i.e. the function is deterministic on that path. -/
theorem premium_early_return_deterministic (bgt : Nat) (hist : List GasMeta)
    (blocks nbi : Nat) (r n1 n2 : Int)
    (h : premiumLoop (sortPrices hist) (bgt * blocks % U64_MOD / 2) 0 0 = .inl r) :
    (∃ g ∈ sortPrices hist, r = g.price + 1) ∧
    estimate_gas_premium bgt hist blocks nbi n1 = r ∧
    estimate_gas_premium bgt hist blocks nbi n1 =
      estimate_gas_premium bgt hist blocks nbi n2 := by
  have hres : ∀ n : Int, estimate_gas_premium bgt hist blocks nbi n = r := by
    intro n
    simp only [estimate_gas_premium, h]
  exact ⟨premiumLoop_inl_mem _ _ _ _ _ h, hres n1, (hres n1).trans (hres n2).symm⟩

/-- C9 witness: budget 10 with one collected message of premium 7 and gas
limit exactly 10 hits the early-return branch and yields 8 under two
different noise samples. -/
theorem premium_early_return_deterministic_witness :
    (∃ g ∈ sortPrices [⟨7, 10⟩], (8 : Int) = g.price + 1) ∧
    estimate_gas_premium 10 [⟨7, 10⟩] 2 1 (2 ^ 32) = 8 ∧
    estimate_gas_premium 10 [⟨7, 10⟩] 2 1 (2 ^ 32) =
      estimate_gas_premium 10 [⟨7, 10⟩] 2 1 (2 ^ 33) :=
  premium_early_return_deterministic 10 [⟨7, 10⟩] 2 1 8 (2 ^ 32) (2 ^ 33) rfl

/-- C5: abstracting the `f64` increase factor as an exact rational
`incf ≥ 1` (which `(1 + 1/BASE_FEE_MAX_CHANGE_DENOM)^max_queue_blocks` is for
any non-negative `max_queue_blocks`), a successful `estimate_fee_cap` on a
non-negative parent base fee returns exactly
`floor(parent_base_fee * trunc(incf * 2^8) / 2^8) + gas_premium`, which is
`≥` the message's gas premium. -/
theorem fee_cap_formula (pbf prem : Int) (incf : ℚ)
    (hpbf : 0 ≤ pbf) (hincf : 1 ≤ incf) :
    estimate_fee_cap pbf prem (some incf) =
      some (Int.fdiv (pbf * ratTrunc (incf * 2 ^ 8)) (2 ^ 8) + prem) ∧
    ∀ res : Int, estimate_fee_cap pbf prem (some incf) = some res → prem ≤ res := by
  refine ⟨rfl, ?_⟩
  intro res hres
  have hq : (0 : ℚ) ≤ incf * 2 ^ 8 :=
    mul_nonneg (le_trans zero_le_one hincf) (by positivity)
  have htr : (0 : Int) ≤ ratTrunc (incf * 2 ^ 8) := by
    rw [ratTrunc, if_pos hq]
    exact Int.floor_nonneg.mpr hq
  have hff : (0 : Int) ≤ Int.fdiv (pbf * ratTrunc (incf * 2 ^ 8)) (2 ^ 8) :=
    Int.fdiv_nonneg (mul_nonneg hpbf htr) (by norm_num)
  have heq : estimate_fee_cap pbf prem (some incf) =
      some (Int.fdiv (pbf * ratTrunc (incf * 2 ^ 8)) (2 ^ 8) + prem) := rfl
  rw [heq] at hres
  have := Option.some.inj hres
  omega

/-- C5 witness: parent base fee 100, premium 5 and increase factor `9/8`
give `floor(100 * 288 / 256) + 5 = 117 ≥ 5`. -/
theorem fee_cap_formula_witness :
    estimate_fee_cap 100 5 (some (9 / 8 : ℚ)) =
      some (Int.fdiv ((100 : Int) * ratTrunc ((9 / 8 : ℚ) * 2 ^ 8)) (2 ^ 8) + 5) ∧
    (5 : Int) ≤ Int.fdiv ((100 : Int) * ratTrunc ((9 / 8 : ℚ) * 2 ^ 8)) (2 ^ 8) + 5 ∧
    Int.fdiv ((100 : Int) * ratTrunc ((9 / 8 : ℚ) * 2 ^ 8)) (2 ^ 8) + 5 = 117 :=
  ⟨(fee_cap_formula 100 5 (9 / 8) (by norm_num) (by norm_num)).1,
   (fee_cap_formula 100 5 (9 / 8) (by norm_num) (by norm_num)).2 _
     (fee_cap_formula 100 5 (9 / 8) (by norm_num) (by norm_num)).1,
   by norm_num [ratTrunc]; rfl⟩

/-- C10: a missing receipt also yields the sentinel `-1` inside `Ok`, so a
successful `-1` result does not distinguish an on-chain revert (non-zero exit
code) from an absent receipt. -/
theorem gas_limit_missing_receipt :
    estimate_gas_limit none = -1 ∧
    ∀ r : MessageReceipt, r.exit_code ≠ 0 →
      estimate_gas_limit (some r) = estimate_gas_limit none := by
  refine ⟨rfl, ?_⟩
  intro r h
  simp [estimate_gas_limit, h]

/-- C10 witness: the sentinel for a missing receipt coincides with the
sentinel for a reverted execution. -/
theorem gas_limit_missing_receipt_witness :
    estimate_gas_limit none = -1 ∧
    estimate_gas_limit (some ⟨7, 3⟩) = estimate_gas_limit none :=
  ⟨gas_limit_missing_receipt.1, gas_limit_missing_receipt.2 ⟨7, 3⟩ (by decide)⟩

/-- C7: `estimate_message_gas` never overwrites a non-zero `gas_limit`,
`gas_premium` or `gas_fee_cap`, and leaves the from, to, sequence, value,
method and params fields unchanged in every case. -/
theorem message_gas_frame (msg : Message) (glEst gpEst : Int)
    (fcEst : Message → Int) :
    (msg.gas_limit ≠ 0 →
      (estimate_message_gas msg glEst gpEst fcEst).gas_limit = msg.gas_limit) ∧
    (msg.gas_premium ≠ 0 →
      (estimate_message_gas msg glEst gpEst fcEst).gas_premium = msg.gas_premium) ∧
    (msg.gas_fee_cap ≠ 0 →
      (estimate_message_gas msg glEst gpEst fcEst).gas_fee_cap = msg.gas_fee_cap) ∧
    (estimate_message_gas msg glEst gpEst fcEst).fromAddr = msg.fromAddr ∧
    (estimate_message_gas msg glEst gpEst fcEst).toAddr = msg.toAddr ∧
    (estimate_message_gas msg glEst gpEst fcEst).sequence = msg.sequence ∧
    (estimate_message_gas msg glEst gpEst fcEst).value = msg.value ∧
    (estimate_message_gas msg glEst gpEst fcEst).method = msg.method ∧
    (estimate_message_gas msg glEst gpEst fcEst).params = msg.params := by
  by_cases h1 : msg.gas_limit = 0 <;>
    by_cases h2 : msg.gas_premium = 0 <;>
      by_cases h3 : msg.gas_fee_cap = 0 <;>
        simp [estimate_message_gas, h1, h2, h3]

/-- C7 witness: a message with all gas fields non-zero passes through
unchanged in every framed field. -/
theorem message_gas_frame_witness :
    (estimate_message_gas msgNZ (-1) 42 (fun _ => 0)).gas_limit = msgNZ.gas_limit ∧
    (estimate_message_gas msgNZ (-1) 42 (fun _ => 0)).gas_premium = msgNZ.gas_premium ∧
    (estimate_message_gas msgNZ (-1) 42 (fun _ => 0)).gas_fee_cap = msgNZ.gas_fee_cap ∧
    (estimate_message_gas msgNZ (-1) 42 (fun _ => 0)).fromAddr = msgNZ.fromAddr :=
  ⟨(message_gas_frame msgNZ (-1) 42 (fun _ => 0)).1 (by decide),
   (message_gas_frame msgNZ (-1) 42 (fun _ => 0)).2.1 (by decide),
   (message_gas_frame msgNZ (-1) 42 (fun _ => 0)).2.2.1 (by decide),
   (message_gas_frame msgNZ (-1) 42 (fun _ => 0)).2.2.2.1⟩

/-- C8: with `gas_limit = 0` on input and the gas-limit estimator returning
the sentinel `-1` (no error is reported), `estimate_message_gas` stores
`-1 as u64 = 2 ^ 64 - 1` into the message's gas limit. -/
theorem message_gas_sentinel_cast (msg : Message) (gpEst : Int)
    (fcEst : Message → Int) (h : msg.gas_limit = 0) :
    (estimate_message_gas msg (-1) gpEst fcEst).gas_limit = 2 ^ 64 - 1 := by
  unfold estimate_message_gas
  rw [if_pos h]
  dsimp only
  split_ifs <;> rfl

/-- C8 witness: the cast at a concrete zero-gas-limit message. -/
theorem message_gas_sentinel_cast_witness :
    (estimate_message_gas msgZL (-1) 0 (fun _ => 0)).gas_limit = 2 ^ 64 - 1 :=
  message_gas_sentinel_cast msgZL 0 (fun _ => 0) rfl

end Forest
